import Mathlib

/-
Shallow embedding of src/main.c: a multi-threaded frequency counter for the
last comma-separated field ("MVP name") of each line of a text file.

Modelling conventions:
  * bytes of C strings are Nat values below 256 (C strings carry no interior
    NUL, so a string is a List Nat of its bytes);
  * non-negative C int values are Nat; C unsigned int arithmetic wraps
    modulo 2 ^ 32, written explicitly;
  * undefined behaviour of the C source (dereferencing a NULL pointer,
    reading uninitialized memory) is modelled by Option.none;
  * the parallel phase is serialized worker by worker: every
    incrementOrInsertHashItem call is one atomic critical section under the
    table mutex, so the final table contents depend only on the multiset of
    processed keys, which the serialization preserves.
-/

namespace MVP

/-- Modulus of 32-bit C unsigned int arithmetic. -/
def UINT_LIMIT : Nat := 4294967296

/-- Value contributed by byte b when read through a signed char (key[i] in
hashGenerator, src/main.c:256) and converted to unsigned int: bytes at or
above 128 are negative as chars and wrap modulo 2 ^ 32. -/
def signedCharToUInt (b : Nat) : Nat := if b < 128 then b else UINT_LIMIT - 256 + b

/-- hashGenerator (src/main.c:252-260): polynomial rolling hash with
multiplier 31, reduced modulo size at every iteration, computed in C
unsigned int arithmetic. -/
def hashGenerator (key : List Nat) (size : Nat) : Nat :=
  key.foldl (fun h b => ((h * 31) % UINT_LIMIT + signedCharToUInt b) % UINT_LIMIT % size) 0

/-- HashItem (src/main.c:27-31): one entry of the chaining hash table.  The
collision chain next-pointers become the tail of the bucket list. -/
structure HashItem where
  key : List Nat
  value : Nat
  deriving DecidableEq

/-- HashTable (src/main.c:35-39): items is the buckets array, size its
capacity, count the number of distinct entries. -/
structure HashTable where
  items : List (List HashItem)
  size : Nat
  count : Nat
  deriving DecidableEq

/-- createHashTable (src/main.c:197-218): zero-initialized buckets array of
the given capacity, count 0 (the successful-allocation outcome). -/
def createHashTable (size : Nat) : HashTable :=
  ⟨List.replicate size [], size, 0⟩

/-- The chain walk of incrementOrInsertHashItem (src/main.c:280-292): walk
the collision chain; on a byte-equal key (strcmp == 0) increment that
entry's value by 1 and stop; none when no entry matches. -/
def chainIncrement : List HashItem → List Nat → Option (List HashItem)
  | [], _ => none
  | it :: rest, key =>
    if it.key = key then some (⟨it.key, it.value + 1⟩ :: rest)
    else
      match chainIncrement rest key with
      | some rest2 => some (it :: rest2)
      | none => none

/-- incrementOrInsertHashItem (src/main.c:264-307), successful-allocation
path: compute the bucket index, walk its chain; on a match increment that
entry by 1; on a miss push a new entry with the given value onto the chain
head and increment count.  The whole body runs under the table mutex. -/
def incrementOrInsertHashItem (table : HashTable) (key : List Nat) (value : Nat) : HashTable :=
  match chainIncrement (table.items.getD (hashGenerator key table.size) []) key with
  | some newChain =>
    ⟨table.items.set (hashGenerator key table.size) newChain, table.size, table.count⟩
  | none =>
    ⟨table.items.set (hashGenerator key table.size)
      (⟨key, value⟩ :: table.items.getD (hashGenerator key table.size) []),
     table.size, table.count + 1⟩

/-- incrementOrInsertHashItem with the allocation outcome of createHashItem
(src/main.c:294-300) made explicit.  When the key misses and allocation
fails, createHashItem returns NULL and the source immediately writes
newItem->next through that NULL pointer (the TODO at src/main.c:295 records
the missing error check): undefined behaviour, modelled as none. -/
def incrementOrInsertAlloc (table : HashTable) (key : List Nat) (value : Nat)
    (allocOk : Bool) : Option HashTable :=
  match chainIncrement (table.items.getD (hashGenerator key table.size) []) key with
  | some newChain =>
    some ⟨table.items.set (hashGenerator key table.size) newChain, table.size, table.count⟩
  | none =>
    if allocOk then
      some ⟨table.items.set (hashGenerator key table.size)
        (⟨key, value⟩ :: table.items.getD (hashGenerator key table.size) []),
       table.size, table.count + 1⟩
    else none

/-- ceilDivision (src/main.c:186-192): ceiling division of non-negative
ints. -/
def ceilDivision (numerator divisor : Nat) : Nat :=
  if numerator % divisor = 0 then numerator / divisor else numerator / divisor + 1

/-- The partition loop of main (src/main.c:137-157): n remaining workers,
current start line, fixed chunk = linesPerThread, fixed lineCount; each
worker receives the half-open range (start, min (start + chunk) lineCount)
and the next worker starts where it ended. -/
def partitionRangesAux : Nat → Nat → Nat → Nat → List (Nat × Nat)
  | 0, _, _, _ => []
  | n + 1, start, chunk, lineCount =>
    (start, min (start + chunk) lineCount) ::
      partitionRangesAux n (min (start + chunk) lineCount) chunk lineCount

/-- Ranges assigned by main to the workerCount workers: start at 0 with
chunk = ceilDivision lineCount workerCount (src/main.c:106,137-157). -/
def partitionRanges (lineCount workerCount : Nat) : List (Nat × Nat) :=
  partitionRangesAux workerCount 0 (ceilDivision lineCount workerCount) lineCount

/-- Index of the last comma byte of a line (strrchr(buffer, 44) in
src/main.c:478); none when the line has no comma. -/
def lastCommaIndex : List Nat → Option Nat
  | [] => none
  | b :: rest =>
    match lastCommaIndex rest with
    | some i => some (i + 1)
    | none => if b = 44 then some 0 else none

/-- The trim loop of extractMVPNamesFromLineRange (src/main.c:483-489):
strcspn truncates the string at its first carriage-return or newline
byte. -/
def stripAtCRLF (s : List Nat) : List Nat :=
  s.takeWhile (fun b => !(b == 13 || b == 10))

/-- Key extraction for one record (src/main.c:478,487): the bytes after the
last comma, truncated at the first CR or LF.  When the record has no comma,
strrchr returns NULL and the source calls strdup(NULL + 1): undefined
behaviour, modelled as none.  A record is modelled as the bytes fgets
returned, without the trailing newline terminator (a trailing CR from a
CRLF file is kept and removed by the trim). -/
def extractKeyFromLine (line : List Nat) : Option (List Nat) :=
  match lastCommaIndex line with
  | some i => some (stripAtCRLF (line.drop (i + 1)))
  | none => none

/-- extractMVPNamesFromLineRange (src/main.c:450-494) on an available file:
allocate endLine - startLine slots, skip startLine records, fill one slot
per record actually read; slots past the records actually read stay
uninitialized (malloc at src/main.c:461, never written), modelled as
none. -/
def extractRange (lines : List (List Nat)) (startLine endLine : Nat) :
    List (Option (List Nat)) :=
  ((lines.drop startLine).take (endLine - startLine)).map extractKeyFromLine ++
    List.replicate ((endLine - startLine) -
      ((lines.drop startLine).take (endLine - startLine)).length) none

/-- The insert loop of countPlayerOccurrences (src/main.c:542-548): insert
every slot of the returned array into the table with value 1.  Passing an
undefined slot (no-comma record or uninitialized trailing slot) to
incrementOrInsertHashItem is undefined behaviour: none. -/
def insertKeys (table : HashTable) : List (Option (List Nat)) → Option HashTable
  | [] => some table
  | none :: _ => none
  | some k :: rest => insertKeys (incrementOrInsertHashItem table k 1) rest

/-- countPlayerOccurrences (src/main.c:524-555) for one worker whose range
reader succeeded: extract the keys of its range and insert them all. -/
def runWorker (lines : List (List Nat)) (table : HashTable) (r : Nat × Nat) :
    Option HashTable :=
  insertKeys table (extractRange lines r.1 r.2)

/-- Concatenation of the key slots produced for a list of ranges, in worker
order; the sequence of keys the serialized parallel phase feeds to the
table. -/
def extractAll (lines : List (List Nat)) : List (Nat × Nat) → List (Option (List Nat))
  | [] => []
  | r :: rest => extractRange lines r.1 r.2 ++ extractAll lines rest

/-- The parallel phase of main (src/main.c:161-169), serialized in join
order; each incrementOrInsertHashItem is one atomic critical section, so
the resulting table is the same for every interleaving. -/
def runWorkers (lines : List (List Nat)) : HashTable → List (Nat × Nat) → Option HashTable
  | table, [] => some table
  | table, r :: rest =>
    match runWorker lines table r with
    | some t2 => runWorkers lines t2 rest
    | none => none

/-- Whole-run model of main (src/main.c:81-183) up to the joined table: the
file is a list of records (the units fgets returns, each below the 1024
byte buffer), the table capacity is the line count, the workers process the
partition ranges. -/
def runProgram (lines : List (List Nat)) (workerCount : Nat) : Option HashTable :=
  runWorkers lines (createHashTable lines.length) (partitionRanges lines.length workerCount)

/-- Sum of the counts of one collision chain. -/
def chainSum (chain : List HashItem) : Nat := (chain.map HashItem.value).sum

/-- Sum of all counts stored in the table. -/
def sumValues (t : HashTable) : Nat := (t.items.map chainSum).sum

/-- Multiset of (key, count) pairs of the table, the observable content of
the report body up to row order. -/
def tableEntriesMultiset (t : HashTable) : Multiset (List Nat × Nat) :=
  ((t.items.map (fun chain => chain.map (fun it => (it.key, it.value)))).flatten : List (List Nat × Nat))

/-- Whether some entry of the chain has the given byte-equal key. -/
def chainHasKey (chain : List HashItem) (key : List Nat) : Bool :=
  chain.any (fun it => it.key == key)

/-- Specification-side description of a successful chain update: increment
the first byte-equal entry by exactly 1 and leave everything else
untouched. -/
def bumpFirst : List HashItem → List Nat → List HashItem
  | [], _ => []
  | it :: rest, key =>
    if it.key = key then ⟨it.key, it.value + 1⟩ :: rest else it :: bumpFirst rest key

/-- countVisibleCharacters (src/main.c:318-332): count the bytes whose top
two bits are not the UTF-8 continuation pattern; the signed char read
str[i] & 0xC0 != 0x80 tests exactly the byte value b &&& 192 != 128. -/
def countVisibleCharacters : List Nat → Nat
  | [] => 0
  | b :: rest => (if (b &&& 192) = 128 then 0 else 1) + countVisibleCharacters rest

/-- Specification-side code-point count: bytes whose top two bits are not
10, i.e. b / 64 differs from 2 for bytes below 256. -/
def codePointCount (s : List Nat) : Nat :=
  (s.filter (fun b => decide (b / 64 ≠ 2))).length

/-- The padding loop of writeReportOfPlayersSortedByMVPCount
(src/main.c:389-401): the key followed by one ASCII space per step from its
visible-character count up to 24. -/
def padKey (key : List Nat) : List Nat :=
  key ++ List.replicate (24 - countVisibleCharacters key) 32

/-- Outcome environment of one run of main (src/main.c:81-183): which of
the checked steps succeed.  workerCount is the atoi result;
lineCountResult is none when getLineCountFromFile returns -1; reportOpenOk
records whether fopen of reporte_mvp.txt succeeds (write and close results
are never inspected by the source). -/
structure RunEnv where
  argcOk : Bool
  workerCount : Int
  lineCountResult : Option Nat
  tableAllocOk : Bool
  threadsAllocOk : Bool
  threadDataAllocOk : Bool
  reportOpenOk : Bool
  deriving DecidableEq

/-- Exit code of main (src/main.c:81-183).  writeReportOfPlayersSortedByMVPCount
returns void and its fopen-failure path (src/main.c:376-381) only logs and
returns, so the report outcome never reaches the exit code. -/
def mainExitCode (env : RunEnv) : Nat :=
  if !env.argcOk then 1
  else if env.workerCount ≤ 0 then 1
  else if env.lineCountResult = none then 1
  else if !env.tableAllocOk then 1
  else if !env.threadsAllocOk then 1
  else if !env.threadDataAllocOk then 1
  else 0

/-! Helper lemmas about the embedded operations. -/

/-- The per-iteration modulo keeps every hash value below a positive
capacity. -/
theorem hashGenerator_lt (key : List Nat) (size : Nat) (h : 1 ≤ size) :
    hashGenerator key size < size := by
  have main : ∀ (l : List Nat) (a : Nat), a < size →
      l.foldl (fun h b => ((h * 31) % UINT_LIMIT + signedCharToUInt b) % UINT_LIMIT % size) a
        < size := by
    intro l
    induction l with
    | nil => intro a ha; simpa using ha
    | cons b rest ih =>
      intro a ha
      simp only [List.foldl_cons]
      exact ih _ (Nat.mod_lt _ h)
  exact main key 0 h

theorem getD_set_self {α : Type} (l : List α) (i : Nat) (a d : α) (h : i < l.length) :
    (l.set i a).getD i d = a := by
  induction l generalizing i with
  | nil => simp at h
  | cons x xs ih =>
    cases i with
    | zero => rfl
    | succ n =>
      simp only [List.set_cons_succ, List.getD_cons_succ]
      exact ih n (by simpa using h)

theorem getD_set_ne {α : Type} (l : List α) (i j : Nat) (a d : α) (h : i ≠ j) :
    (l.set i a).getD j d = l.getD j d := by
  induction l generalizing i j with
  | nil => simp
  | cons x xs ih =>
    cases i with
    | zero =>
      cases j with
      | zero => exact absurd rfl h
      | succ m => rfl
    | succ n =>
      cases j with
      | zero => rfl
      | succ m =>
        simp only [List.set_cons_succ, List.getD_cons_succ]
        exact ih n m (by omega)

/-- Replacing bucket i changes the total count sum by the difference of the
two chain sums, stated additively. -/
theorem sum_set_add (l : List (List HashItem)) (i : Nat) (c : List HashItem)
    (h : i < l.length) :
    ((l.set i c).map chainSum).sum + chainSum (l.getD i []) =
      (l.map chainSum).sum + chainSum c := by
  induction l generalizing i with
  | nil => simp at h
  | cons x xs ih =>
    cases i with
    | zero => simp [List.set]; omega
    | succ n =>
      have := ih n (by simpa using h)
      simp only [List.set_cons_succ, List.getD_cons_succ, List.map_cons, List.sum_cons]
      omega

/-- The chain walk succeeds exactly on chains holding the key, and then
performs the specification-side first-match bump. -/
theorem chainIncrement_eq_some (chain : List HashItem) (key : List Nat)
    (h : chainHasKey chain key = true) :
    chainIncrement chain key = some (bumpFirst chain key) := by
  induction chain with
  | nil => simp [chainHasKey] at h
  | cons it rest ih =>
    by_cases hk : it.key = key
    · simp [chainIncrement, bumpFirst, hk]
    · have hrest : chainHasKey rest key = true := by
        simp [chainHasKey, List.any_cons] at h ⊢
        rcases h with h | h
        · exact absurd h hk
        · exact h
      simp [chainIncrement, bumpFirst, hk, ih hrest]

theorem chainIncrement_eq_none (chain : List HashItem) (key : List Nat)
    (h : chainHasKey chain key = false) :
    chainIncrement chain key = none := by
  induction chain with
  | nil => rfl
  | cons it rest ih =>
    simp [chainHasKey, List.any_cons] at h
    have hrest : chainIncrement rest key = none := by
      apply ih
      simp [chainHasKey]
      exact h.2
    simp [chainIncrement, h.1, hrest]

/-- A successful chain walk adds exactly 1 to the chain sum. -/
theorem chainSum_chainIncrement (chain c2 : List HashItem) (key : List Nat)
    (h : chainIncrement chain key = some c2) :
    chainSum c2 = chainSum chain + 1 := by
  induction chain generalizing c2 with
  | nil => simp [chainIncrement] at h
  | cons it rest ih =>
    by_cases hk : it.key = key
    · simp only [chainIncrement, if_pos hk] at h
      cases h
      simp [chainSum]
      omega
    · simp only [chainIncrement, if_neg hk] at h
      cases hr : chainIncrement rest key with
      | none => rw [hr] at h; cases h
      | some r2 =>
        rw [hr] at h
        cases h
        have h2 := ih r2 hr
        simp [chainSum] at h2 ⊢
        omega

theorem incr_size (t : HashTable) (k : List Nat) (v : Nat) :
    (incrementOrInsertHashItem t k v).size = t.size := by
  unfold incrementOrInsertHashItem
  split <;> rfl

theorem incr_items_length (t : HashTable) (k : List Nat) (v : Nat) :
    (incrementOrInsertHashItem t k v).items.length = t.items.length := by
  unfold incrementOrInsertHashItem
  split <;> simp

/-- Every insert-or-increment call adds exactly 1 to the stored sum of
counts, on a well-formed table. -/
theorem sumValues_incr (t : HashTable) (k : List Nat)
    (hlen : t.items.length = t.size) (hsz : 1 ≤ t.size) :
    sumValues (incrementOrInsertHashItem t k 1) = sumValues t + 1 := by
  have hidx : hashGenerator k t.size < t.items.length := by
    rw [hlen]; exact hashGenerator_lt k _ hsz
  unfold incrementOrInsertHashItem
  cases hc : chainIncrement (t.items.getD (hashGenerator k t.size) []) k with
  | some c2 =>
    simp only [hc, sumValues]
    have hs := sum_set_add t.items _ c2 hidx
    have h2 := chainSum_chainIncrement _ _ _ hc
    omega
  | none =>
    simp only [hc, sumValues]
    have hs := sum_set_add t.items _
      (⟨k, 1⟩ :: t.items.getD (hashGenerator k t.size) []) hidx
    simp [chainSum] at hs ⊢
    omega

/-- A completed insert loop conserves the sum of counts: it grows by
exactly the number of inserted keys, and well-formedness is preserved. -/
theorem insertKeys_some (keys : List (Option (List Nat))) (t t2 : HashTable)
    (hlen : t.items.length = t.size) (hsz : 1 ≤ t.size)
    (h : insertKeys t keys = some t2) :
    sumValues t2 = sumValues t + keys.length ∧
      t2.items.length = t2.size ∧ t2.size = t.size := by
  induction keys generalizing t with
  | nil =>
    simp [insertKeys] at h
    subst h
    exact ⟨by simp, hlen, rfl⟩
  | cons k rest ih =>
    cases k with
    | none => simp [insertKeys] at h
    | some key =>
      simp only [insertKeys] at h
      have hlen2 : (incrementOrInsertHashItem t key 1).items.length =
          (incrementOrInsertHashItem t key 1).size := by
        rw [incr_items_length, incr_size]; exact hlen
      have hsz2 : 1 ≤ (incrementOrInsertHashItem t key 1).size := by
        rw [incr_size]; exact hsz
      obtain ⟨h1, h2, h3⟩ := ih _ hlen2 hsz2 h
      refine ⟨?_, h2, by rw [h3, incr_size]⟩
      rw [h1, sumValues_incr t key hlen hsz]
      simp
      omega

/-- The insert loop over a completed run only succeeds when every slot held
a defined key. -/
theorem insertKeys_some_isSome (keys : List (Option (List Nat))) (t t2 : HashTable)
    (h : insertKeys t keys = some t2) :
    ∀ k ∈ keys, Option.isSome k = true := by
  induction keys generalizing t with
  | nil => simp
  | cons k rest ih =>
    cases k with
    | none => simp [insertKeys] at h
    | some key =>
      simp only [insertKeys] at h
      intro x hx
      rcases List.mem_cons.mp hx with hx | hx
      · subst hx; rfl
      · exact ih _ h x hx

theorem insertKeys_append (a b : List (Option (List Nat))) (t : HashTable) :
    insertKeys t (a ++ b) =
      match insertKeys t a with
      | some t2 => insertKeys t2 b
      | none => none := by
  induction a generalizing t with
  | nil => simp [insertKeys]
  | cons k rest ih =>
    cases k with
    | none => simp [insertKeys]
    | some key => simp [insertKeys, ih]

/-- The serialized parallel phase feeds exactly the concatenation of the
workers' key slots into the table. -/
theorem runWorkers_eq_insertKeys (lines : List (List Nat)) (ranges : List (Nat × Nat))
    (t : HashTable) :
    runWorkers lines t ranges = insertKeys t (extractAll lines ranges) := by
  induction ranges generalizing t with
  | nil => simp [runWorkers, extractAll, insertKeys]
  | cons r rest ih =>
    simp only [runWorkers, extractAll, runWorker, insertKeys_append]
    cases h : insertKeys t (extractRange lines r.1 r.2) with
    | none => simp
    | some t2 => simp [ih]

theorem length_filterMap_of_isSome {α β : Type} (f : α → Option β) (l : List α)
    (h : ∀ x ∈ l, (f x).isSome = true) :
    (l.filterMap f).length = l.length := by
  induction l with
  | nil => rfl
  | cons x xs ih =>
    have hx := h x (List.mem_cons_self x xs)
    cases hfx : f x with
    | none => rw [hfx] at hx; cases hx
    | some y =>
      rw [List.filterMap_cons, hfx]
      simp only [List.length_cons]
      rw [ih (fun z hz => h z (List.mem_cons_of_mem x hz))]

/-! Arithmetic of the partitioner. -/

theorem min_add_min (a c L : Nat) : min (min a L + c) L = min (a + c) L := by
  omega

/-- Stepping the partition loop once advances the reachable end by one
chunk. -/
theorem min_step (start chunk n L : Nat) :
    min (min (start + chunk) L + n * chunk) L = min (start + (n + 1) * chunk) L := by
  rw [min_add_min]
  congr 1
  rw [Nat.succ_mul]
  ring

theorem le_mul_ceilDivision (L nT : Nat) (h : 1 ≤ nT) : L ≤ nT * ceilDivision L nT := by
  have hdm := Nat.div_add_mod L nT
  have hmod : L % nT < nT := Nat.mod_lt _ h
  unfold ceilDivision
  split
  · rename_i h0
    rw [Nat.mul_div_cancel' (Nat.dvd_of_mod_eq_zero h0)]
  · rw [Nat.mul_add, Nat.mul_one]
    calc L = nT * (L / nT) + L % nT := hdm.symm
    _ ≤ nT * (L / nT) + nT := Nat.add_le_add_left (Nat.le_of_lt hmod) _

theorem ceilDivision_pos (L nT : Nat) (hL : 1 ≤ L) (hT : 1 ≤ nT) :
    1 ≤ ceilDivision L nT := by
  unfold ceilDivision
  split
  · rename_i h0
    by_cases hle : nT ≤ L
    · exact Nat.div_pos hle hT
    · exfalso
      have : L % nT = L := Nat.mod_eq_of_lt (by omega)
      omega
  · exact Nat.le_add_left 1 _

/-- The embedded ceilDivision computes the mathematical ceiling of the
division. -/
theorem ceilDivision_eq_ceil (L nT : Nat) (h : 1 ≤ nT) :
    ceilDivision L nT = (L + nT - 1) / nT := by
  have hdm := Nat.div_add_mod L nT
  have hmod : L % nT < nT := Nat.mod_lt _ h
  unfold ceilDivision
  split
  · rename_i h0
    have h1 : L + nT - 1 = nT * (L / nT) + (nT - 1) := by omega
    rw [h1, Nat.mul_add_div h, Nat.div_eq_of_lt (by omega : nT - 1 < nT)]
    exact (Nat.add_zero _).symm
  · rename_i h0
    have h1 : L + nT - 1 = nT * (L / nT + 1) + (L % nT - 1) := by
      rw [Nat.mul_add, Nat.mul_one]; omega
    rw [h1, Nat.mul_add_div h, Nat.div_eq_of_lt (by omega : L % nT - 1 < nT)]

theorem partitionRangesAux_length (n start chunk L : Nat) :
    (partitionRangesAux n start chunk L).length = n := by
  induction n generalizing start with
  | zero => rfl
  | succ m ih => simp [partitionRangesAux, ih]

/-- Closed form of the ranges the partition loop emits, from a start that
is itself a clamped multiple of the chunk. -/
theorem partitionRangesAux_getD (chunk L : Nat) :
    ∀ n k i, i < n →
      (partitionRangesAux n (min (k * chunk) L) chunk L).getD i (0, 0) =
        (min ((k + i) * chunk) L, min (min ((k + i) * chunk) L + chunk) L) := by
  intro n
  induction n with
  | zero => intro k i hi; omega
  | succ m ih =>
    intro k i hi
    cases i with
    | zero => simp [partitionRangesAux]
    | succ j =>
      have hstep : min (min (k * chunk) L + chunk) L = min ((k + 1) * chunk) L := by
        rw [min_add_min]
        congr 1
        rw [Nat.succ_mul]
      simp only [partitionRangesAux, List.getD_cons_succ]
      rw [hstep]
      have hrec := ih (k + 1) j (by omega)
      rw [hrec]
      have hidx : k + 1 + j = k + (j + 1) := by omega
      rw [hidx]

/-- Closed form for the ranges main hands to the workers. -/
theorem partitionRanges_getD (L nT i : Nat) (hi : i < nT) :
    (partitionRanges L nT).getD i (0, 0) =
      (min (i * ceilDivision L nT) L,
       min (min (i * ceilDivision L nT) L + ceilDivision L nT) L) := by
  unfold partitionRanges
  have haux := partitionRangesAux_getD (ceilDivision L nT) L nT 0 i hi
  simpa using haux

/-- A line index is covered by some emitted range exactly when it lies
between the loop's current start and the clamped end of its remaining
chunks. -/
theorem partitionRangesAux_covered (chunk L : Nat) :
    ∀ n start j, start ≤ L →
      ((∃ i, i < n ∧
          ((partitionRangesAux n start chunk L).getD i (0, 0)).1 ≤ j ∧
          j < ((partitionRangesAux n start chunk L).getD i (0, 0)).2) ↔
        (start ≤ j ∧ j < min (start + n * chunk) L)) := by
  intro n
  induction n with
  | zero =>
    intro start j hs
    constructor
    · rintro ⟨i, hi, _⟩
      omega
    · rintro ⟨h1, h2⟩
      exfalso
      have hz : (0 : Nat) * chunk = 0 := Nat.zero_mul chunk
      rw [hz] at h2
      omega
  | succ m ih =>
    intro start j hs
    have heL : min (start + chunk) L ≤ L := Nat.min_le_right _ _
    have hse : start ≤ min (start + chunk) L := le_min (Nat.le_add_right _ _) hs
    have hstep := min_step start chunk m L
    have hIH := ih (min (start + chunk) L) j heL
    set F := min (min (start + chunk) L + m * chunk) L with hF
    have heF : min (start + chunk) L ≤ F := by
      rw [hF]
      exact le_min (Nat.le_add_right _ _) heL
    constructor
    · rintro ⟨i, hi, h1, h2⟩
      cases i with
      | zero =>
        simp only [partitionRangesAux, List.getD_cons_zero] at h1 h2
        rw [← hstep]
        omega
      | succ i2 =>
        simp only [partitionRangesAux, List.getD_cons_succ] at h1 h2
        have hcov := hIH.mp ⟨i2, by omega, h1, h2⟩
        rw [← hstep]
        omega
    · rintro ⟨h1, h2⟩
      rw [← hstep] at h2
      by_cases hj : j < min (start + chunk) L
      · refine ⟨0, by omega, ?_, ?_⟩
        · simpa only [partitionRangesAux, List.getD_cons_zero] using h1
        · simpa only [partitionRangesAux, List.getD_cons_zero] using hj
      · obtain ⟨i, hi, ha, hb⟩ := hIH.mpr ⟨by omega, h2⟩
        refine ⟨i + 1, by omega, ?_, ?_⟩
        · simpa only [partitionRangesAux, List.getD_cons_succ] using ha
        · simpa only [partitionRangesAux, List.getD_cons_succ] using hb

/-- The key slots of the partition ranges, concatenated in worker order,
are one extraction per record of the file, in file order. -/
theorem extractAll_partitionAux (lines : List (List Nat)) (chunk : Nat) :
    ∀ n start, start ≤ lines.length →
      extractAll lines (partitionRangesAux n start chunk lines.length) =
        ((lines.drop start).take (min (start + n * chunk) lines.length - start)).map
          extractKeyFromLine := by
  intro n
  induction n with
  | zero =>
    intro start hs
    have hz : min (start + 0 * chunk) lines.length - start = 0 := by
      rw [Nat.zero_mul]
      omega
    rw [hz]
    simp [extractAll, partitionRangesAux]
  | succ m ih =>
    intro start hs
    have heL : min (start + chunk) lines.length ≤ lines.length := Nat.min_le_right _ _
    have hse : start ≤ min (start + chunk) lines.length :=
      le_min (Nat.le_add_right _ _) hs
    simp only [partitionRangesAux, extractAll]
    rw [ih (min (start + chunk) lines.length) heL]
    have hrange : extractRange lines start (min (start + chunk) lines.length) =
        ((lines.drop start).take (min (start + chunk) lines.length - start)).map
          extractKeyFromLine := by
      unfold extractRange
      have hlen : ((lines.drop start).take (min (start + chunk) lines.length - start)).length =
          min (start + chunk) lines.length - start := by
        rw [List.length_take, List.length_drop]
        omega
      rw [hlen]
      simp
    rw [hrange, ← List.map_append]
    congr 1
    have hstep := min_step start chunk m lines.length
    set F := min (min (start + chunk) lines.length + m * chunk) lines.length with hF
    have heF : min (start + chunk) lines.length ≤ F := by
      rw [hF]
      exact le_min (Nat.le_add_right _ _) heL
    have hdd : lines.drop (min (start + chunk) lines.length) =
        (lines.drop start).drop (min (start + chunk) lines.length - start) := by
      rw [List.drop_drop]
      congr 1
      omega
    rw [hdd]
    have htake := List.take_add (lines.drop start)
      (min (start + chunk) lines.length - start) (F - min (start + chunk) lines.length)
    have harith : min (start + chunk) lines.length - start +
        (F - min (start + chunk) lines.length) = F - start := by
      omega
    rw [harith] at htake
    rw [← hstep]
    exact htake.symm

/-- For at least one worker, the partition covers the whole file, so the
serialized run processes exactly one extraction per record, in order. -/
theorem runProgram_eq_insertKeys (lines : List (List Nat)) (nT : Nat) (h : 1 ≤ nT) :
    runProgram lines nT =
      insertKeys (createHashTable lines.length) (lines.map extractKeyFromLine) := by
  unfold runProgram partitionRanges
  rw [runWorkers_eq_insertKeys,
    extractAll_partitionAux lines (ceilDivision lines.length nT) nT 0 (Nat.zero_le _)]
  have hcov : min (0 + nT * ceilDivision lines.length nT) lines.length = lines.length := by
    have := le_mul_ceilDivision lines.length nT h
    omega
  rw [hcov]
  simp

set_option maxRecDepth 4000 in
theorem byte_top_bits : ∀ b, b < 256 → (((b &&& 192) = 128) ↔ b / 64 = 2) := by decide

set_option maxRecDepth 4000 in
theorem ascii_not_continuation : ∀ b, b < 128 → ((b &&& 192) ≠ 128) := by decide

/-- On byte strings the masked-byte loop counts exactly the
non-continuation bytes. -/
theorem countVisibleCharacters_eq_codePointCount (s : List Nat)
    (h : ∀ b ∈ s, b < 256) :
    countVisibleCharacters s = codePointCount s := by
  induction s with
  | nil => rfl
  | cons b rest ih =>
    have hb := h b (List.mem_cons_self b rest)
    have hrest := ih (fun x hx => h x (List.mem_cons_of_mem b hx))
    by_cases hc : (b &&& 192) = 128
    · have h2 : b / 64 = 2 := (byte_top_bits b hb).mp hc
      simp [countVisibleCharacters, codePointCount, List.filter_cons, hc, h2] at hrest ⊢
      exact hrest
    · have h2 : b / 64 ≠ 2 := fun hh => hc ((byte_top_bits b hb).mpr hh)
      simp [countVisibleCharacters, codePointCount, List.filter_cons, hc, h2] at hrest ⊢
      omega

/-- A pure-ASCII byte string has one visible character per byte. -/
theorem countVisibleCharacters_ascii (s : List Nat) (h : ∀ b ∈ s, b < 128) :
    countVisibleCharacters s = s.length := by
  induction s with
  | nil => rfl
  | cons b rest ih =>
    have hb := ascii_not_continuation b (h b (List.mem_cons_self b rest))
    have hrest := ih (fun x hx => h x (List.mem_cons_of_mem b hx))
    simp [countVisibleCharacters, hb, hrest]
    omega

/-! Claim theorems. -/

/-- C1: whenever the full run completes, the sum of all counts stored in
the joined frequency table equals the number of keys successfully
extracted from the records by all workers together, for every worker
count. -/
theorem c1_conservation (lines : List (List Nat)) (nT : Nat) (t : HashTable)
    (h : 1 ≤ nT) (hrun : runProgram lines nT = some t) :
    sumValues t = (lines.filterMap extractKeyFromLine).length := by
  rw [runProgram_eq_insertKeys lines nT h] at hrun
  rcases Nat.eq_zero_or_pos lines.length with hL | hL
  · have hnil : lines = [] := List.eq_nil_of_length_eq_zero hL
    subst hnil
    simp [insertKeys] at hrun
    subst hrun
    rfl
  · have hlen : (createHashTable lines.length).items.length =
        (createHashTable lines.length).size := by
      simp [createHashTable]
    have hsz : 1 ≤ (createHashTable lines.length).size := by
      simp [createHashTable]
      omega
    obtain ⟨hsum, -, -⟩ := insertKeys_some _ _ _ hlen hsz hrun
    have hval : sumValues (createHashTable lines.length) = 0 := by
      simp [sumValues, createHashTable, chainSum]
    have hkeys := insertKeys_some_isSome _ _ _ hrun
    have hfm : (lines.filterMap extractKeyFromLine).length = lines.length := by
      apply length_filterMap_of_isSome
      intro x hx
      exact hkeys (extractKeyFromLine x) (List.mem_map_of_mem _ hx)
    rw [hsum, hval, hfm, List.length_map]
    omega

theorem c1_witness :
    sumValues ⟨[[], [⟨[65], 2⟩]], 2, 1⟩ =
      (([[103, 44, 65], [104, 44, 65]] : List (List Nat)).filterMap
        extractKeyFromLine).length :=
  c1_conservation [[103, 44, 65], [104, 44, 65]] 2 ⟨[[], [⟨[65], 2⟩]], 2, 1⟩
    (by decide) (by decide)

/-- C2: for any two worker counts the joined frequency table holds the
same multiset of (key, count) pairs; only the order of report rows among
equal counts can differ. -/
theorem c2_thread_count_invariance (lines : List (List Nat)) (nT1 nT2 : Nat)
    (h1 : 1 ≤ nT1) (h2 : 1 ≤ nT2) :
    (runProgram lines nT1).map tableEntriesMultiset =
      (runProgram lines nT2).map tableEntriesMultiset := by
  rw [runProgram_eq_insertKeys lines nT1 h1, runProgram_eq_insertKeys lines nT2 h2]

theorem c2_witness :
    (runProgram [[103, 49, 44, 65, 108, 105, 99, 101], [103, 50, 44, 66, 111, 98],
        [103, 51, 44, 65, 108, 105, 99, 101]] 1).map tableEntriesMultiset =
      (runProgram [[103, 49, 44, 65, 108, 105, 99, 101], [103, 50, 44, 66, 111, 98],
        [103, 51, 44, 65, 108, 105, 99, 101]] 5).map tableEntriesMultiset :=
  c2_thread_count_invariance
    [[103, 49, 44, 65, 108, 105, 99, 101], [103, 50, 44, 66, 111, 98],
      [103, 51, 44, 65, 108, 105, 99, 101]] 1 5 (by decide) (by decide)

/-- C3: for every totalLines and every workerCount at least 1 the
partitioner emits workerCount half-open ranges with
chunk = ceil(totalLines / workerCount), range i being
[min (i * chunk) totalLines, min (start + chunk) totalLines); the ranges
are contiguous and non-overlapping, they cover exactly the indices below
totalLines, and every range from index totalLines on is empty. -/
theorem c3_partitioner (N_L N_T : Nat) (h : 1 ≤ N_T) :
    ceilDivision N_L N_T = (N_L + N_T - 1) / N_T ∧
    (partitionRanges N_L N_T).length = N_T ∧
    (∀ i, i < N_T →
      (partitionRanges N_L N_T).getD i (0, 0) =
        (min (i * ceilDivision N_L N_T) N_L,
         min (min (i * ceilDivision N_L N_T) N_L + ceilDivision N_L N_T) N_L)) ∧
    (∀ i, i + 1 < N_T →
      ((partitionRanges N_L N_T).getD (i + 1) (0, 0)).1 =
        ((partitionRanges N_L N_T).getD i (0, 0)).2) ∧
    (∀ j, j < N_L ↔
      ∃ i, i < N_T ∧ ((partitionRanges N_L N_T).getD i (0, 0)).1 ≤ j ∧
        j < ((partitionRanges N_L N_T).getD i (0, 0)).2) ∧
    (∀ i1 i2 j, i1 < N_T → i2 < N_T → i1 ≠ i2 →
      ¬(((partitionRanges N_L N_T).getD i1 (0, 0)).1 ≤ j ∧
        j < ((partitionRanges N_L N_T).getD i1 (0, 0)).2 ∧
        ((partitionRanges N_L N_T).getD i2 (0, 0)).1 ≤ j ∧
        j < ((partitionRanges N_L N_T).getD i2 (0, 0)).2)) ∧
    (∀ i, i < N_T → N_L ≤ i →
      ((partitionRanges N_L N_T).getD i (0, 0)).1 =
        ((partitionRanges N_L N_T).getD i (0, 0)).2) := by
  have hdisj : ∀ a b, a < N_T → b < N_T → a < b →
      ((partitionRanges N_L N_T).getD a (0, 0)).2 ≤
        ((partitionRanges N_L N_T).getD b (0, 0)).1 := by
    intro a b haT hbT hab
    rw [partitionRanges_getD N_L N_T a haT, partitionRanges_getD N_L N_T b hbT]
    simp only []
    rw [min_add_min]
    have hmul : (a + 1) * ceilDivision N_L N_T ≤ b * ceilDivision N_L N_T :=
      Nat.mul_le_mul (by omega) (Nat.le_refl _)
    have hexp : (a + 1) * ceilDivision N_L N_T =
        a * ceilDivision N_L N_T + ceilDivision N_L N_T := by ring
    omega
  refine ⟨ceilDivision_eq_ceil N_L N_T h, ?_, ?_, ?_, ?_, ?_, ?_⟩
  · unfold partitionRanges
    exact partitionRangesAux_length N_T 0 (ceilDivision N_L N_T) N_L
  · intro i hi
    exact partitionRanges_getD N_L N_T i hi
  · intro i hi
    rw [partitionRanges_getD N_L N_T (i + 1) hi,
      partitionRanges_getD N_L N_T i (by omega)]
    simp only []
    rw [min_add_min]
    congr 1
    rw [Nat.succ_mul]
  · intro j
    have hcov := partitionRangesAux_covered (ceilDivision N_L N_T) N_L N_T 0 j
      (Nat.zero_le _)
    have hmin : min (0 + N_T * ceilDivision N_L N_T) N_L = N_L := by
      have := le_mul_ceilDivision N_L N_T h
      omega
    unfold partitionRanges
    constructor
    · intro hj
      exact hcov.mpr ⟨Nat.zero_le _, by omega⟩
    · intro hex
      have := hcov.mp hex
      omega
  · intro i1 i2 j h1 h2 hne
    rintro ⟨ha1, hb1, ha2, hb2⟩
    rcases Nat.lt_or_ge i1 i2 with hlt | hge
    · have := hdisj i1 i2 h1 h2 hlt
      omega
    · have hlt2 : i2 < i1 := by omega
      have := hdisj i2 i1 h2 h1 hlt2
      omega
  · intro i hi hLe
    rw [partitionRanges_getD N_L N_T i hi]
    simp only []
    by_cases hL0 : N_L = 0
    · subst hL0
      simp
    · have hc : 1 ≤ ceilDivision N_L N_T := ceilDivision_pos N_L N_T (by omega) h
      have hmul : N_L ≤ i * ceilDivision N_L N_T :=
        calc N_L ≤ i := hLe
        _ = i * 1 := (Nat.mul_one i).symm
        _ ≤ i * ceilDivision N_L N_T := Nat.mul_le_mul_left i hc
      omega

theorem c3_witness : (partitionRanges 5 2).length = 2 :=
  (c3_partitioner 5 2 (by decide)).2.1

/-- C4: incrementOrInsertHashItem locates the bucket hash(key) mod
capacity and walks that chain for a byte-equal key: on a match the
matching entry's count grows by exactly 1 and nothing else changes; on a
miss a fresh entry with count 1 is pushed onto the chain head and the
distinct count grows by 1. -/
theorem c4_incrementOrInsert (t : HashTable) (key : List Nat)
    (hlen : t.items.length = t.size) (hsz : 1 ≤ t.size) :
    (incrementOrInsertHashItem t key 1).size = t.size ∧
    (incrementOrInsertHashItem t key 1).items.length = t.items.length ∧
    (∀ j, j < t.items.length → j ≠ hashGenerator key t.size % t.size →
      (incrementOrInsertHashItem t key 1).items.getD j [] = t.items.getD j []) ∧
    (if chainHasKey (t.items.getD (hashGenerator key t.size % t.size) []) key then
      (incrementOrInsertHashItem t key 1).count = t.count ∧
      (incrementOrInsertHashItem t key 1).items.getD
          (hashGenerator key t.size % t.size) [] =
        bumpFirst (t.items.getD (hashGenerator key t.size % t.size) []) key
    else
      (incrementOrInsertHashItem t key 1).count = t.count + 1 ∧
      (incrementOrInsertHashItem t key 1).items.getD
          (hashGenerator key t.size % t.size) [] =
        ⟨key, 1⟩ :: t.items.getD (hashGenerator key t.size % t.size) []) := by
  have hmod : hashGenerator key t.size % t.size = hashGenerator key t.size :=
    Nat.mod_eq_of_lt (hashGenerator_lt key t.size hsz)
  rw [hmod]
  have hidx : hashGenerator key t.size < t.items.length := by
    rw [hlen]
    exact hashGenerator_lt key t.size hsz
  refine ⟨incr_size t key 1, incr_items_length t key 1, ?_, ?_⟩
  · intro j hj hne
    unfold incrementOrInsertHashItem
    cases hc : chainIncrement (t.items.getD (hashGenerator key t.size) []) key <;>
      · simp only [hc]
        exact getD_set_ne _ _ _ _ _ (fun he => hne he.symm)
  · by_cases hk : chainHasKey (t.items.getD (hashGenerator key t.size) []) key = true
    · rw [if_pos hk]
      have hc := chainIncrement_eq_some _ key hk
      unfold incrementOrInsertHashItem
      simp only [hc]
      exact ⟨trivial, getD_set_self _ _ _ _ hidx⟩
    · rw [if_neg hk]
      have hfalse : chainHasKey (t.items.getD (hashGenerator key t.size) []) key = false := by
        cases hcb : chainHasKey (t.items.getD (hashGenerator key t.size) []) key
        · rfl
        · exact absurd hcb hk
      have hc := chainIncrement_eq_none _ key hfalse
      unfold incrementOrInsertHashItem
      simp only [hc]
      exact ⟨trivial, getD_set_self _ _ _ _ hidx⟩

theorem c4_witness :
    (incrementOrInsertHashItem (createHashTable 3) [66, 111, 98] 1).size =
      (createHashTable 3).size :=
  (c4_incrementOrInsert (createHashTable 3) [66, 111, 98] rfl (by decide)).1

/-- C5 (failing input): a miss with a failed entry allocation does not
leave the map untouched; createHashItem returns NULL and
incrementOrInsertHashItem dereferences it while the mutex is held
(src/main.c:296-299, the TODO at src/main.c:295 records the missing error
check), so the outcome is the undefined none, not some unchanged table. -/
theorem c5_alloc_failure_crashes :
    incrementOrInsertAlloc (createHashTable 3) [66, 111, 98] 1 false = none := by
  rfl

/-- C6 (failing input): a record with no comma byte; strrchr returns NULL
and the source calls strdup(NULL + 1) (src/main.c:478), which is undefined
behaviour (none) instead of returning the whole trimmed record. -/
theorem c6_no_comma_crashes :
    extractKeyFromLine [76, 111, 110, 101, 69, 110, 116, 114, 121] = none ∧
      lastCommaIndex [76, 111, 110, 101, 69, 110, 116, 114, 121] = none := by
  exact ⟨rfl, rfl⟩

/-- C7 (failing input): range [0, 2) on a one-record file; the reader
returns two slots with the trailing slot uninitialized (none) instead of a
truncated one-element sequence, and the worker then feeds the undefined
slot to the table. -/
theorem c7_short_read_not_truncated :
    extractRange [[103, 44, 66, 111, 98]] 0 2 = [some [66, 111, 98], none] ∧
      (extractRange [[103, 44, 66, 111, 98]] 0 2).length = 2 ∧
      insertKeys (createHashTable 1) (extractRange [[103, 44, 66, 111, 98]] 0 2) = none := by
  exact ⟨rfl, rfl, rfl⟩

/-- C8 (counterexample): a run in which every step succeeds except
creating the report file exits 0, not 1; the fopen-failure path of
writeReportOfPlayersSortedByMVPCount only logs and returns
(src/main.c:376-381) and main returns EXIT_SUCCESS (src/main.c:182). -/
theorem c8_counterexample :
    mainExitCode ⟨true, 4, some 3, true, true, true, false⟩ = 0 ∧
      mainExitCode ⟨true, 4, some 3, true, true, true, false⟩ ≠ 1 := by
  exact ⟨rfl, by decide⟩

/-- C8 (amended): the process exits 0 exactly when the argument count is
right, the worker count is positive, line counting succeeds and the three
allocations succeed; the report-file outcome never influences the exit
code, and every exit code is 0 or 1. -/
theorem c8_exit_code (env : RunEnv) :
    (mainExitCode env = 0 ↔
      (env.argcOk = true ∧ 0 < env.workerCount ∧ env.lineCountResult.isSome = true ∧
        env.tableAllocOk = true ∧ env.threadsAllocOk = true ∧
        env.threadDataAllocOk = true)) ∧
    (mainExitCode env = 0 ∨ mainExitCode env = 1) := by
  rcases env with ⟨a, w, l, tb, th, td, r⟩
  cases a
  all_goals cases tb
  all_goals cases th
  all_goals cases td
  all_goals cases l
  all_goals simp [mainExitCode]
  all_goals omega

/-- C9: the visible-character count of a byte string is the number of its
bytes whose top two bits are not 10 (its UTF-8 code-point count), and a
pure-ASCII key of length at most 24 yields a padded prefix of exactly 24
bytes. -/
theorem c9_visible_width (key : List Nat) (hb : ∀ b ∈ key, b < 256) :
    countVisibleCharacters key = codePointCount key ∧
      ((∀ b ∈ key, b < 128) → key.length ≤ 24 → (padKey key).length = 24) := by
  refine ⟨countVisibleCharacters_eq_codePointCount key hb, fun hascii hlen => ?_⟩
  unfold padKey
  rw [List.length_append, List.length_replicate,
    countVisibleCharacters_ascii key hascii]
  omega

theorem c9_witness :
    countVisibleCharacters [65, 108, 105, 99, 101] =
        codePointCount [65, 108, 105, 99, 101] ∧
      (padKey [65, 108, 105, 99, 101]).length = 24 := by
  have h := c9_visible_width [65, 108, 105, 99, 101] (by decide)
  exact ⟨h.1, h.2 (by decide) (by decide)⟩

/-- C10: for every capacity at least 1 and every key, including the empty
key and keys with non-ASCII bytes, the hash value is strictly below the
capacity, so the bucket access items[hash] performed by
incrementOrInsertHashItem stays inside the buckets array. -/
theorem c10_hash_in_bounds (key : List Nat) (t : HashTable)
    (hlen : t.items.length = t.size) (hsz : 1 ≤ t.size) :
    hashGenerator key t.size < t.size ∧
      hashGenerator key t.size < t.items.length := by
  refine ⟨hashGenerator_lt key t.size hsz, ?_⟩
  rw [hlen]
  exact hashGenerator_lt key t.size hsz

theorem c10_witness :
    hashGenerator [80, 101, 241] (createHashTable 5).size < (createHashTable 5).size ∧
      hashGenerator [80, 101, 241] (createHashTable 5).size <
        (createHashTable 5).items.length :=
  c10_hash_in_bounds [80, 101, 241] (createHashTable 5) rfl (by decide)

end MVP
